import Mathlib

/-!
# log-stream: a single-writer, multi-reader tailing byte stream

Shallow embedding of `stream.go` (package `logstream`).

* The temp file is its content, a list of bytes.  Every reader owns a file
  handle of its own, which is an offset into that content.
* The channel `done` is only ever closed (nothing is sent on it), so it is a
  flag: `true` once `close(l.done)` ran.  A receive in a `select` with a
  `default` branch succeeds exactly when the flag is set.
* `sync.Cond.Broadcast` is counted in `broadcasts`; in the interleaving model
  below it also releases every reader parked in `Wait`.
* Results of the operating system (a failing append, a failing open, a failing
  read) are parameters of the operations.
-/

namespace Logstream

abbrev Byte := UInt8

/-- Go `error` values that occur: `io.EOF`, the value built by
`errors.New("write to closed stream")`, and any error of the `os` layer. -/
inductive Error where
  | EOF
  | streamClosed
  | io (code : Nat)
  deriving DecidableEq, Repr

/-- State of a `LogStream`: content of `tempFile`, the `done` channel as a
flag, and the number of `c.Broadcast()` calls made so far. -/
structure LogStream where
  tempFile : List Byte
  done : Bool
  broadcasts : Nat
  deriving DecidableEq, Repr

/-- State of a `LogStreamReader`: the offset of its own handle `file`.  The
fields `c` and `done` alias the stream's, so they live in `LogStream`. -/
structure LogStreamReader where
  off : Nat
  deriving DecidableEq, Repr

/-- A failing `tempFile.Write`: `written` bytes reached the file before the
error `err` was reported. -/
structure WriteFault where
  written : Nat
  err : Error
  deriving DecidableEq, Repr

/-- Result of a storage read `file.Read(buffer)`: the bytes stored in the
buffer, their count `n`, and the error. -/
structure FileRead where
  data : List Byte
  n : Nat
  err : Option Error
  deriving DecidableEq, Repr

/-- What one pass through the loop body of `Read` does: return `(n, err)` to
the caller, or go on to `Lock(); Wait()`. -/
inductive ReadResult where
  | ret (n : Nat) (err : Option Error)
  | wait
  deriving DecidableEq, Repr

/-- The constructor `New`: `ioutil.TempFile` either fails or gives an empty file; the stream
starts with `done` open. -/
def New (tempFileErr : Option Error) : Except Error LogStream :=
  match tempFileErr with
  | some e => .error e
  | none => .ok { tempFile := [], done := false, broadcasts := 0 }

/-- Method `(*LogStream).Close`: nothing when `done` is closed already, otherwise
`close(l.done)` and the deferred `Broadcast`.  Always returns `nil`. -/
def Close (l : LogStream) : Option Error × LogStream :=
  if l.done then (none, l)
  else (none, { l with done := true, broadcasts := l.broadcasts + 1 })

/-- Library call `os.File.Write` on the temp file: all of `buffer` is appended and
`(len(buffer), nil)` returned, unless the operating system fails. -/
def fileWrite (content buffer : List Byte) (fault : Option WriteFault) :
    List Byte × Nat × Option Error :=
  match fault with
  | none => (content ++ buffer, buffer.length, none)
  | some f => (content ++ buffer.take f.written, (buffer.take f.written).length, some f.err)

/-- Method `(*LogStream).Write`: refuse when `done` is closed; otherwise append,
and on a storage error run `Close` and return `(0, err)`, else `Broadcast` and
return the count. -/
def Write (l : LogStream) (buffer : List Byte) (fault : Option WriteFault) :
    (Nat × Option Error) × LogStream :=
  if l.done then ((0, some Error.streamClosed), l)
  else
    match fileWrite l.tempFile buffer fault with
    | (content, _, some e) => ((0, some e), (Close { l with tempFile := content }).2)
    | (content, n, none) =>
      ((n, none), { l with tempFile := content, broadcasts := l.broadcasts + 1 })

/-- Method `(*LogStream).NewReader`: `os.Open` either fails or gives a handle at
offset 0. -/
def NewReader (_l : LogStream) (openErr : Option Error) : Except Error LogStreamReader :=
  match openErr with
  | some e => .error e
  | none => .ok { off := 0 }

/-- Library call `os.File.Read` on a regular file without a fault: nothing for an empty
buffer, `(0, io.EOF)` at the end of the content, otherwise the bytes that fit. -/
def fileRead (content : List Byte) (off buflen : Nat) : FileRead :=
  if buflen = 0 then { data := [], n := 0, err := none }
  else
    let chunk := (content.drop off).take buflen
    if chunk.length = 0 then { data := [], n := 0, err := some Error.EOF }
    else { data := chunk, n := chunk.length, err := none }

/-- Lines 88-99 of `Read`: what the loop body does with the storage result
`(n, err)` and the flag `done` it then looks at. -/
def afterRead (done : Bool) (n : Nat) (err : Option Error) : ReadResult :=
  if err ≠ none ∧ err ≠ some Error.EOF then .ret n err
  else if n > 0 then .ret n none
  else if done then .ret 0 (some Error.EOF)
  else .wait

/-- One pass of the loop of `(*LogStreamReader).Read` on a given storage
result, with no writer step in between: the handle has advanced by `n`. -/
def ReadWith (l : LogStream) (lr : LogStreamReader) (r : FileRead) :
    ReadResult × List Byte × LogStreamReader :=
  (afterRead l.done r.n r.err, r.data, { off := lr.off + r.n })

/-- Method `(*LogStreamReader).Read` with a buffer of `buflen` bytes while no other
goroutine runs: `.wait` means the call is parked in `Wait`. -/
def Read (l : LogStream) (lr : LogStreamReader) (buflen : Nat) :
    ReadResult × List Byte × LogStreamReader :=
  ReadWith l lr (fileRead l.tempFile lr.off buflen)

/-- How a drain loop ends. -/
inductive Drained where
  | eof (bytes : List Byte)
  | blocked
  | failed (e : Error)
  | outOfFuel
  deriving DecidableEq, Repr

/-- The reading loop of the tests: `Read` into a buffer of `buflen` bytes and
collect `data[:n]` until `io.EOF`. -/
def drain (l : LogStream) (buflen : Nat) : Nat → LogStreamReader → List Byte → Drained
  | 0, _, _ => .outOfFuel
  | fuel + 1, lr, acc =>
    match Read l lr buflen with
    | (.wait, _, _) => .blocked
    | (.ret _ (some Error.EOF), _, _) => .eof acc
    | (.ret _ (some e), _, _) => .failed e
    | (.ret _ none, data, lr') => drain l buflen fuel lr' (acc ++ data)

/-! ## Goroutines interleaved

The writer runs `Write` and `Close` as single steps.  A reader goroutine runs
the loop of the tests (call `Read` into a buffer of `buflen` bytes until it
returns an error) one statement group at a time: the storage read of line 87,
the checks of lines 88-99, then `Lock(); Wait()`.  No lock is held between
these, and neither `Write` nor `Close` takes the mutex, so writer steps may
fall between any two of them. -/

/-- Where a reader goroutine stands. -/
inductive Pc where
  | atRead
  | atCheck (r : FileRead)
  | atLock
  | waiting
  | stopped (e : Error)
  deriving DecidableEq, Repr

/-- A reader goroutine: its `LogStreamReader`, the size of its buffer, its
position in `Read`, the bytes its `Read` calls delivered so far and the
`(n, err)` those calls returned. -/
structure ReaderProc where
  lr : LogStreamReader
  buflen : Nat
  pc : Pc
  got : List Byte
  rets : List (Nat × Option Error)
  deriving DecidableEq, Repr

/-- The stream and the reader goroutines around it. -/
structure Sys where
  l : LogStream
  rs : List ReaderProc
  deriving DecidableEq, Repr

/-- One scheduling decision. -/
inductive Event where
  | write (buffer : List Byte) (fault : Option WriteFault)
  | close
  | newReader (buflen : Nat)
  | reader (i : Nat)
  deriving DecidableEq, Repr

/-- Apply `f` to the element at index `i`, if there is one. -/
def updateAt (f : ReaderProc → ReaderProc) : List ReaderProc → Nat → List ReaderProc
  | [], _ => []
  | r :: rs, 0 => f r :: rs
  | r :: rs, i + 1 => r :: updateAt f rs i

/-- What `Broadcast` does to one goroutine: a parked one leaves `Wait`,
unlocks and starts the next pass of the loop. -/
def wakeOne (r : ReaderProc) : ReaderProc :=
  match r.pc with
  | .waiting => { r with pc := .atRead }
  | _ => r

/-- The readers after a writer step: all parked ones are released when the
step made a `Broadcast`. -/
def broadcastIf (before after : LogStream) (rs : List ReaderProc) : List ReaderProc :=
  if after.broadcasts = before.broadcasts then rs else rs.map wakeOne

/-- The next step of a reader goroutine, on the stream as it is now. -/
def readerStep (l : LogStream) (r : ReaderProc) : ReaderProc :=
  match r.pc with
  | .atRead =>
    { r with lr := { off := r.lr.off + (fileRead l.tempFile r.lr.off r.buflen).n },
             pc := .atCheck (fileRead l.tempFile r.lr.off r.buflen) }
  | .atCheck fr =>
    match afterRead l.done fr.n fr.err with
    | .ret n none => { r with pc := .atRead, got := r.got ++ fr.data, rets := r.rets ++ [(n, none)] }
    | .ret n (some e) => { r with pc := .stopped e, rets := r.rets ++ [(n, some e)] }
    | .wait => { r with pc := .atLock }
  | .atLock => { r with pc := .waiting }
  | .waiting => r
  | .stopped _ => r

/-- One step of the system. -/
def step (s : Sys) : Event → Sys
  | .write buffer fault =>
    { l := (Write s.l buffer fault).2,
      rs := broadcastIf s.l (Write s.l buffer fault).2 s.rs }
  | .close =>
    { l := (Close s.l).2, rs := broadcastIf s.l (Close s.l).2 s.rs }
  | .newReader buflen =>
    match NewReader s.l none with
    | .ok lr => { s with rs := s.rs ++ [{ lr := lr, buflen := buflen, pc := .atRead,
                                          got := [], rets := [] }] }
    | .error _ => s
  | .reader i => { s with rs := updateAt (readerStep s.l) s.rs i }

/-- Run a schedule. -/
def run (es : List Event) (s : Sys) : Sys := es.foldl step s

/-- The system right after a successful `New`. -/
def init : Sys := { l := { tempFile := [], done := false, broadcasts := 0 }, rs := [] }

/-! ## One reader whose passes are not interrupted -/

/-- A reader together with the stream, for schedules in which no writer step
falls inside a pass of `Read`: the bytes delivered so far and whether a `Read`
has returned `io.EOF`. -/
structure Tail where
  l : LogStream
  lr : LogStreamReader
  got : List Byte
  eof : Bool
  deriving DecidableEq, Repr

/-- Steps of such a schedule: a successful `Write`, `Close`, or one whole pass
of the reader's `Read`. -/
inductive Op where
  | write (buffer : List Byte)
  | close
  | read
  deriving DecidableEq, Repr

/-- One step; a pass that ends in `Wait` returns nothing and is retried by
the next `read`. -/
def Tail.step (buflen : Nat) (t : Tail) : Op → Tail
  | .write buffer => { t with l := (Write t.l buffer none).2 }
  | .close => { t with l := (Close t.l).2 }
  | .read =>
    if t.eof then t
    else
      match Read t.l t.lr buflen with
      | (.ret _ none, data, lr) => { t with lr := lr, got := t.got ++ data }
      | (.ret _ (some Error.EOF), _, _) => { t with eof := true }
      | (.ret _ (some _), _, _) => t
      | (.wait, _, _) => t

/-- Run a schedule of uninterrupted steps. -/
def Tail.run (buflen : Nat) (ops : List Op) (t : Tail) : Tail := ops.foldl (Tail.step buflen) t

/-- The bytes the writer appends along a schedule that starts on a stream
whose closed flag is `done`: the buffers of the `Write`s before the first
`Close`. -/
def written : Bool → List Op → List Byte
  | _, [] => []
  | true, _ :: ops => written true ops
  | false, .write buffer :: ops => buffer ++ written false ops
  | false, .close :: ops => written true ops
  | false, .read :: ops => written false ops

/-- Invariant of `Tail.step`: the reader has received exactly the bytes before
its offset, and it has seen `io.EOF` only on a closed stream with its offset
at the end. -/
def Tail.Inv (t : Tail) : Prop :=
  t.lr.off ≤ t.l.tempFile.length ∧ t.got = t.l.tempFile.take t.lr.off ∧
    (t.eof = true → t.l.done = true ∧ t.lr.off = t.l.tempFile.length)

/-! ## Sequential behaviour -/

theorem Close_done (l : LogStream) : (Close l).2.done = true := by
  unfold Close
  split <;> simp_all

theorem Close_of_done (l : LogStream) (h : l.done = true) : Close l = (none, l) := by
  simp [Close, h]

theorem Close_tempFile (l : LogStream) : (Close l).2.tempFile = l.tempFile := by
  unfold Close
  split <;> rfl

theorem Write_done_mono (l : LogStream) (buffer : List Byte) (fault : Option WriteFault)
    (h : l.done = true) : (Write l buffer fault).2.done = true := by
  simp [Write, h]

theorem fileRead_at_end (content : List Byte) (off buflen : Nat)
    (h : content.length ≤ off) : (fileRead content off buflen).n = 0 ∧
      ((fileRead content off buflen).err = none ∨
        (fileRead content off buflen).err = some Error.EOF) := by
  unfold fileRead
  split
  · simp
  · simp [List.drop_eq_nil_of_le h]

theorem fileRead_inside (content : List Byte) (off buflen : Nat)
    (hb : 0 < buflen) (h : off < content.length) :
    fileRead content off buflen =
      { data := (content.drop off).take buflen,
        n := min buflen (content.length - off), err := none } := by
  unfold fileRead
  have hne : ¬ buflen = 0 := by omega
  have hlen : ((content.drop off).take buflen).length = min buflen (content.length - off) := by
    simp
  simp only [hne, if_false, hlen]
  have : ¬ min buflen (content.length - off) = 0 := by
    rw [Nat.min_def]; split <;> omega
  simp [this]

theorem drain_closed (l : LogStream) (buflen : Nat) (hb : 0 < buflen) (hd : l.done = true) :
    ∀ (fuel : Nat) (lr : LogStreamReader) (acc : List Byte),
      l.tempFile.length - lr.off < fuel →
      drain l buflen fuel lr acc = .eof (acc ++ l.tempFile.drop lr.off) := by
  intro fuel
  induction fuel with
  | zero => intro lr acc h; omega
  | succ fuel ih =>
    intro lr acc h
    by_cases hin : lr.off < l.tempFile.length
    · have hr := fileRead_inside l.tempFile lr.off buflen hb hin
      have hpos : 0 < min buflen (l.tempFile.length - lr.off) := by
        rw [Nat.min_def]; split <;> omega
      have hstep : Read l lr buflen =
          (.ret (min buflen (l.tempFile.length - lr.off)) none,
            (l.tempFile.drop lr.off).take buflen,
            { off := lr.off + min buflen (l.tempFile.length - lr.off) }) := by
        simp [Read, ReadWith, hr, afterRead, hpos]
      rw [drain, hstep]
      simp only
      rw [ih _ _ (by simp only; rw [Nat.min_def]; split <;> omega)]
      congr 1
      rw [List.append_assoc]
      congr 1
      simp only
      have hdd : l.tempFile.drop (lr.off + min buflen (l.tempFile.length - lr.off)) =
          (l.tempFile.drop lr.off).drop buflen := by
        rw [List.drop_drop]
        rcases Nat.le_total buflen (l.tempFile.length - lr.off) with hle | hle
        · rw [Nat.min_eq_left hle, Nat.add_comm]
        · rw [Nat.min_eq_right hle]
          rw [List.drop_eq_nil_of_le (by omega), List.drop_eq_nil_of_le (by omega)]
      rw [hdd, List.take_append_drop]
    · have hle : l.tempFile.length ≤ lr.off := by omega
      obtain ⟨hn, he⟩ := fileRead_at_end l.tempFile lr.off buflen hle
      have hstep : (Read l lr buflen).1 = .ret 0 (some Error.EOF) := by
        rcases he with he | he <;> simp [Read, ReadWith, afterRead, hn, he, hd]
      rw [drain]
      have : l.tempFile.drop lr.off = [] := List.drop_eq_nil_of_le hle
      rw [this, List.append_nil]
      generalize hR : Read l lr buflen = R at hstep
      obtain ⟨r, d, lr'⟩ := R
      simp only at hstep
      subst hstep
      rfl

/-- C1: on a fresh stream, `Write(B)` (the append succeeding), `Close()`,
`NewReader()` and the loop of `Read` calls into a non-empty buffer end with
`io.EOF` having collected exactly `B`; the loop never blocks and `len(B) + 1`
calls are enough. -/
theorem round_trip (B : List Byte) (buflen : Nat) (hb : 0 < buflen) :
    ∃ l0 lr, New none = .ok l0 ∧
      (Write l0 B none).1 = (B.length, none) ∧
      NewReader (Close (Write l0 B none).2).2 none = .ok lr ∧
      drain (Close (Write l0 B none).2).2 buflen (B.length + 1) lr [] = .eof B := by
  refine ⟨_, _, rfl, ?_, rfl, ?_⟩
  · simp [Write, fileWrite]
  · rw [drain_closed _ buflen hb (Close_done _)]
    · simp [Close_tempFile, Write, fileWrite]
    · simp [Close_tempFile, Write, fileWrite]

theorem round_trip_witness :
    ∃ l0 lr, New none = .ok l0 ∧
      (Write l0 [10, 20, 30] none).1 = ([10, 20, 30].length, none) ∧
      NewReader (Close (Write l0 [10, 20, 30] none).2).2 none = .ok lr ∧
      drain (Close (Write l0 [10, 20, 30] none).2).2 1 ([10, 20, 30].length + 1) lr [] =
        .eof [10, 20, 30] :=
  round_trip [10, 20, 30] 1 (by decide)

theorem afterRead_closed_zero (err : Option Error) (he : err = none ∨ err = some Error.EOF) :
    afterRead true 0 err = .ret 0 (some Error.EOF) := by
  rcases he with he | he <;> simp [afterRead, he]

theorem afterRead_closed_ne_wait (n : Nat) (err : Option Error) :
    afterRead true n err ≠ .wait := by
  unfold afterRead
  split
  · simp
  · split <;> simp

/-- C4: on a stream whose `done` channel is closed (in particular after
`Close`), `Write` of any buffer, whatever the storage would have done,
returns `(0, "write to closed stream")` and leaves the whole state as it was:
same file content, no further broadcast. -/
theorem write_after_close (l : LogStream) (buffer : List Byte) (fault : Option WriteFault)
    (h : l.done = true) :
    Write l buffer fault = ((0, some Error.streamClosed), l) ∧
      Write (Close l).2 buffer fault = ((0, some Error.streamClosed), l) ∧
      (Write l buffer fault).2.tempFile = l.tempFile ∧
      (Write l buffer fault).2.broadcasts = l.broadcasts := by
  have hc : (Close l).2 = l := by simp [Close, h]
  simp [Write, h, hc]

theorem write_after_close_witness :
    Write { tempFile := [1, 2], done := true, broadcasts := 2 } [] none =
        ((0, some Error.streamClosed), { tempFile := [1, 2], done := true, broadcasts := 2 }) ∧
      Write (Close { tempFile := [1, 2], done := true, broadcasts := 2 }).2 [] none =
        ((0, some Error.streamClosed), { tempFile := [1, 2], done := true, broadcasts := 2 }) ∧
      (Write { tempFile := [1, 2], done := true, broadcasts := 2 } [] none).2.tempFile = [1, 2] ∧
      (Write { tempFile := [1, 2], done := true, broadcasts := 2 } [] none).2.broadcasts = 2 :=
  write_after_close { tempFile := [1, 2], done := true, broadcasts := 2 } [] none rfl

/-- What a failing append does to the stream itself: `Write` on an open
stream returns `(0, err)` with the storage error and leaves the stream as
`Close` leaves it, `done` closed and one broadcast made.  From then on every
`Write` fails with the stream-closed error, and a pass of `Read` that does
its flag check on that state and has read zero bytes returns `(0, io.EOF)`. -/
theorem storage_fault_closes (l : LogStream) (buffer : List Byte) (f : WriteFault)
    (h : l.done = false) :
    (Write l buffer (some f)).1 = (0, some f.err) ∧
      (Write l buffer (some f)).2 =
        (Close { l with tempFile := l.tempFile ++ buffer.take f.written }).2 ∧
      (Write l buffer (some f)).2.done = true ∧
      (Write l buffer (some f)).2.broadcasts = l.broadcasts + 1 ∧
      (∀ b2 f2, Write (Write l buffer (some f)).2 b2 f2 =
        ((0, some Error.streamClosed), (Write l buffer (some f)).2)) ∧
      (∀ lr data, (ReadWith (Write l buffer (some f)).2 lr ⟨data, 0, none⟩).1 =
          .ret 0 (some Error.EOF) ∧
        (ReadWith (Write l buffer (some f)).2 lr ⟨data, 0, some Error.EOF⟩).1 =
          .ret 0 (some Error.EOF)) ∧
      (∀ lr buflen, (Read (Write l buffer (some f)).2 lr buflen).1 ≠ .wait) := by
  have hw : Write l buffer (some f) =
      ((0, some f.err),
        { tempFile := l.tempFile ++ buffer.take f.written, done := true,
          broadcasts := l.broadcasts + 1 }) := by
    simp [Write, fileWrite, Close, h]
  rw [hw]
  refine ⟨rfl, ?_, rfl, rfl, ?_, ?_, ?_⟩
  · simp [Close, h]
  · intro b2 f2; simp [Write]
  · intro lr data; simp [ReadWith, afterRead]
  · intro lr buflen
    simp only [Read, ReadWith]
    exact afterRead_closed_ne_wait _ _

theorem storage_fault_closes_witness :
    (Write ⟨[1], false, 1⟩ [2, 3] (some ⟨1, Error.io 28⟩)).1 = (0, some (Error.io 28)) ∧
      (Write ⟨[1], false, 1⟩ [2, 3] (some ⟨1, Error.io 28⟩)).2 = ⟨[1, 2], true, 2⟩ :=
  ⟨(storage_fault_closes ⟨[1], false, 1⟩ [2, 3] ⟨1, Error.io 28⟩ rfl).1,
    (storage_fault_closes ⟨[1], false, 1⟩ [2, 3] ⟨1, Error.io 28⟩ rfl).2.1⟩

/-- C6: `Close` returns `nil` in every state; on a closed stream it changes
nothing and broadcasts nothing; on an open stream it closes `done` and
broadcasts once, and a second `Close` adds nothing to that: the state after
`Close(); Close()` is the state after one `Close()`. -/
theorem close_idempotent (l : LogStream) (content : List Byte) (b : Nat) :
    (Close l).1 = none ∧
      (Close (Close l).2).1 = none ∧
      (Close (Close l).2).2 = (Close l).2 ∧
      (Close (Close l).2).2.broadcasts = (Close l).2.broadcasts ∧
      Close ⟨content, true, b⟩ = (none, ⟨content, true, b⟩) ∧
      (Close ⟨content, false, b⟩).2 = ⟨content, true, b + 1⟩ ∧
      (Close (Close ⟨content, false, b⟩).2).2 = ⟨content, true, b + 1⟩ := by
  have h1 : (Close l).1 = none := by unfold Close; split <;> rfl
  have h2 : (Close (Close l).2).2 = (Close l).2 := by
    rw [Close_of_done _ (Close_done l)]
  refine ⟨h1, ?_, h2, by rw [h2], ?_, ?_, ?_⟩
  · unfold Close; split <;> rfl
  · simp [Close]
  · simp [Close]
  · simp [Close]

/-- C8: when the storage read of a pass gives `n > 0` bytes with a nil error
or the storage's own end-of-file, `Read` returns `(n, nil)` with those bytes,
the handle having advanced by `n`, whatever the `done` flag is; and no pass,
on any storage result and flag, returns `io.EOF` with a positive count. -/
theorem nonempty_read_priority (l : LogStream) (lr : LogStreamReader) (r : FileRead)
    (hn : 0 < r.n) (he : r.err = none ∨ r.err = some Error.EOF) :
    ReadWith l lr r = (.ret r.n none, r.data, { off := lr.off + r.n }) ∧
      (∀ done, afterRead done r.n r.err = .ret r.n none) ∧
      (∀ done m err, afterRead done (m + 1) err ≠ .ret (m + 1) (some Error.EOF)) ∧
      (∀ done m k err, afterRead done m err ≠ .ret (k + 1) (some Error.EOF)) := by
  have h1 : ∀ done, afterRead done r.n r.err = .ret r.n none := by
    intro done
    rcases he with he | he <;> simp [afterRead, he, hn]
  have h3 : ∀ done m k err, afterRead done m err ≠ .ret (k + 1) (some Error.EOF) := by
    intro done m k err
    unfold afterRead
    split
    · rename_i h
      intro hc
      injection hc with _ hc2
      exact h.2 hc2
    · split
      · simp
      · split <;> simp
  refine ⟨?_, h1, ?_, h3⟩
  · simp [ReadWith, h1]
  · intro done m err
    exact h3 done (m + 1) m err

theorem nonempty_read_priority_witness :
    ReadWith ⟨[5, 6], true, 3⟩ ⟨0⟩ ⟨[5, 6], 2, some Error.EOF⟩ =
      (.ret 2 none, [5, 6], { off := 0 + 2 }) :=
  (nonempty_read_priority ⟨[5, 6], true, 3⟩ ⟨0⟩ ⟨[5, 6], 2, some Error.EOF⟩
    (by decide) (Or.inr rfl)).1

/-- C7 as stated fails: with an empty buffer the storage read gives `(0, nil)`
wherever the handle stands, so on a closed stream `Read` returns
`(0, io.EOF)` although the byte `7` has not been delivered. -/
theorem eof_before_drained_on_empty_buffer :
    (Read ⟨[7], true, 2⟩ ⟨0⟩ 0).1 = .ret 0 (some Error.EOF) ∧
      ¬ ((⟨[7], true, 2⟩ : LogStream).done = true ∧
        (⟨[7], true, 2⟩ : LogStream).tempFile.length ≤ (⟨0⟩ : LogStreamReader).off) := by
  decide

/-- C7, amended: for a non-empty buffer, a pass of `Read` (storage read and
flag check on the same stream state) returns `io.EOF` exactly when the stream
is closed and the handle is at the end of the content, and the count is then
0; for any buffer, empty or not, a closed stream with the handle at the end
gives `(0, io.EOF)` and leaves the handle where it is. -/
theorem eof_exact (l : LogStream) (lr : LogStreamReader) (buflen : Nat) (hb : 0 < buflen) :
    ((∃ n, (Read l lr buflen).1 = .ret n (some Error.EOF)) ↔
        (l.done = true ∧ l.tempFile.length ≤ lr.off)) ∧
      (∀ n, (Read l lr buflen).1 = .ret n (some Error.EOF) → n = 0) ∧
      (∀ k, l.done = true ∧ l.tempFile.length ≤ lr.off →
        Read l lr k = (.ret 0 (some Error.EOF), [], lr)) := by
  have hconv : ∀ k, l.done = true ∧ l.tempFile.length ≤ lr.off →
      Read l lr k = (.ret 0 (some Error.EOF), [], lr) := by
    intro k ⟨hd, hle⟩
    unfold Read ReadWith fileRead
    split
    · simp [afterRead, hd]
    · simp [List.drop_eq_nil_of_le hle, afterRead, hd]
  have hfwd : ∀ n, (Read l lr buflen).1 = .ret n (some Error.EOF) →
      n = 0 ∧ l.done = true ∧ l.tempFile.length ≤ lr.off := by
    intro n hn
    by_cases hin : lr.off < l.tempFile.length
    · have hr := fileRead_inside l.tempFile lr.off buflen hb hin
      have hpos : 0 < min buflen (l.tempFile.length - lr.off) := by
        rw [Nat.min_def]; split <;> omega
      simp [Read, ReadWith, hr, afterRead, hpos] at hn
    · have hle : l.tempFile.length ≤ lr.off := by omega
      obtain ⟨h0, he⟩ := fileRead_at_end l.tempFile lr.off buflen hle
      cases hd : l.done with
      | true =>
        rcases he with he | he <;>
          simp [Read, ReadWith, afterRead, h0, he, hd] at hn <;>
          exact ⟨hn.symm, rfl, hle⟩
      | false =>
        rcases he with he | he <;> simp [Read, ReadWith, afterRead, h0, he, hd] at hn
  refine ⟨⟨?_, ?_⟩, ?_, hconv⟩
  · rintro ⟨n, hn⟩
    exact (hfwd n hn).2
  · intro h
    exact ⟨0, by rw [hconv buflen h]⟩
  · intro n hn
    exact (hfwd n hn).1

theorem eof_exact_witness :
    (∃ n, (Read ⟨[7], true, 2⟩ ⟨1⟩ 4).1 = .ret n (some Error.EOF)) ∧
      ¬ (∃ n, (Read ⟨[7], true, 2⟩ ⟨0⟩ 4).1 = .ret n (some Error.EOF)) :=
  ⟨((eof_exact ⟨[7], true, 2⟩ ⟨1⟩ 4 (by decide)).1).2 ⟨rfl, by decide⟩,
    fun h => absurd (((eof_exact ⟨[7], true, 2⟩ ⟨0⟩ 4 (by decide)).1).1 h).2 (by decide)⟩

/-! ## Interleaved behaviour -/

theorem getElem_updateAt (f : ReaderProc → ReaderProc) :
    ∀ (rs : List ReaderProc) (j i : Nat),
      (updateAt f rs j)[i]? = if i = j then rs[i]?.map f else rs[i]? := by
  intro rs
  induction rs with
  | nil => intro j i; simp [updateAt]
  | cons r rs ih =>
    intro j i
    cases j with
    | zero =>
      cases i with
      | zero => simp [updateAt]
      | succ i => simp [updateAt]
    | succ j =>
      cases i with
      | zero => simp [updateAt]
      | succ i => simp [updateAt, ih]

theorem readerStep_waiting (l : LogStream) (r : ReaderProc) (h : r.pc = Pc.waiting) :
    readerStep l r = r := by
  unfold readerStep
  rw [h]

theorem step_done (s : Sys) (e : Event) (hd : s.l.done = true) :
    (step s e).l = s.l := by
  cases e with
  | write b f => simp [step, Write, hd]
  | close => simp [step, Close, hd]
  | newReader k => simp [step, NewReader]
  | reader j => simp [step]

theorem run_done (es : List Event) : ∀ (s : Sys), s.l.done = true → (run es s).l = s.l := by
  induction es with
  | nil => intro s _; rfl
  | cons e es ih =>
    intro s hd
    have h1 := step_done s e hd
    have : run (e :: es) s = run es (step s e) := rfl
    rw [this, ih (step s e) (by rw [h1]; exact hd), h1]

theorem parked_step (s : Sys) (e : Event) (i : Nat) (hd : s.l.done = true)
    (hw : (s.rs[i]?).map (fun r => r.pc) = some Pc.waiting) :
    ((step s e).rs[i]?).map (fun r => r.pc) = some Pc.waiting := by
  cases e with
  | write b f => simpa [step, Write, hd, broadcastIf] using hw
  | close => simpa [step, Close, hd, broadcastIf] using hw
  | newReader k =>
    have hlt : i < s.rs.length := by
      by_contra hge
      have : s.rs[i]? = none := List.getElem?_eq_none (by omega)
      rw [this] at hw
      simp at hw
    simp only [step, NewReader]
    rw [List.getElem?_append_left hlt]
    exact hw
  | reader j =>
    simp only [step]
    rw [getElem_updateAt]
    split
    · cases hr : s.rs[i]? with
      | none => rw [hr] at hw; simp at hw
      | some r =>
        rw [hr] at hw
        simp only [Option.map_some', Option.some.injEq] at hw
        simp [readerStep_waiting s.l r hw, hw]
    · exact hw

theorem parked_run (es : List Event) :
    ∀ (s : Sys) (i : Nat), s.l.done = true →
      (s.rs[i]?).map (fun r => r.pc) = some Pc.waiting →
      ((run es s).rs[i]?).map (fun r => r.pc) = some Pc.waiting := by
  induction es with
  | nil => intro s i _ hw; exact hw
  | cons e es ih =>
    intro s i hd hw
    have : run (e :: es) s = run es (step s e) := rfl
    rw [this]
    exact ih (step s e) i (by rw [step_done s e hd]; exact hd) (parked_step s e i hd hw)

theorem parked_rets_step (s : Sys) (e : Event) (i : Nat) (rets : List (Nat × Option Error))
    (hd : s.l.done = true)
    (hw : (s.rs[i]?).map (fun r => (r.pc, r.rets)) = some (Pc.waiting, rets)) :
    ((step s e).rs[i]?).map (fun r => (r.pc, r.rets)) = some (Pc.waiting, rets) := by
  cases e with
  | write b f => simpa [step, Write, hd, broadcastIf] using hw
  | close => simpa [step, Close, hd, broadcastIf] using hw
  | newReader k =>
    have hlt : i < s.rs.length := by
      by_contra hge
      have : s.rs[i]? = none := List.getElem?_eq_none (by omega)
      rw [this] at hw
      simp at hw
    simp only [step, NewReader]
    rw [List.getElem?_append_left hlt]
    exact hw
  | reader j =>
    simp only [step]
    rw [getElem_updateAt]
    split
    · cases hr : s.rs[i]? with
      | none => rw [hr] at hw; simp at hw
      | some r =>
        rw [hr] at hw
        simp only [Option.map_some', Option.some.injEq, Prod.mk.injEq] at hw
        simp [readerStep_waiting s.l r hw.1, hw.1, hw.2]
    · exact hw

theorem parked_rets_run (es : List Event) :
    ∀ (s : Sys) (i : Nat) (rets : List (Nat × Option Error)), s.l.done = true →
      (s.rs[i]?).map (fun r => (r.pc, r.rets)) = some (Pc.waiting, rets) →
      ((run es s).rs[i]?).map (fun r => r.rets) = some rets := by
  induction es with
  | nil =>
    intro s i rets _ hw
    cases hr : s.rs[i]? with
    | none => rw [hr] at hw; simp at hw
    | some r =>
      rw [hr] at hw
      simp only [Option.map_some', Option.some.injEq, Prod.mk.injEq] at hw
      simp [run, hr, hw.2]
  | cons e es ih =>
    intro s i rets hd hw
    have : run (e :: es) s = run es (step s e) := rfl
    rw [this]
    exact ih (step s e) i rets (by rw [step_done s e hd]; exact hd)
      (parked_rets_step s e i rets hd hw)

/-- C3 evaluated on the code: `Read` looks at `done` (line 95) before it
takes the lock (line 100), and `Write` and `Close` never take it.  A reader
that saw the stream open, then `Close`, then `Lock(); Wait()` is parked on a
closed stream, and no schedule of further steps of anyone releases it.  The
same gap after an append leaves a reader parked with an unread byte. -/
theorem lost_wakeup_after_close :
    run [.newReader 1, .reader 0, .reader 0, .close, .reader 0] init =
        ⟨⟨[], true, 1⟩, [⟨⟨0⟩, 1, .waiting, [], []⟩]⟩ ∧
      (∀ es : List Event,
        (run es (run [.newReader 1, .reader 0, .reader 0, .close, .reader 0] init)).l.done = true ∧
        ((run es (run [.newReader 1, .reader 0, .reader 0, .close, .reader 0] init)).rs[0]?).map
          (fun r => r.pc) = some Pc.waiting) ∧
      run [.newReader 1, .reader 0, .reader 0, .write [9] none, .reader 0] init =
        ⟨⟨[9], false, 1⟩, [⟨⟨0⟩, 1, .waiting, [], []⟩]⟩ := by
  have h0 : run [.newReader 1, .reader 0, .reader 0, .close, .reader 0] init =
      ⟨⟨[], true, 1⟩, [⟨⟨0⟩, 1, .waiting, [], []⟩]⟩ := by decide
  refine ⟨h0, ?_, by decide⟩
  intro es
  rw [h0]
  exact ⟨by rw [run_done es _ rfl], parked_run es _ 0 rfl rfl⟩

theorem step_fault_wakes (l : LogStream) (rs : List ReaderProc) (buffer : List Byte)
    (f : WriteFault) (h : l.done = false) :
    step ⟨l, rs⟩ (.write buffer (some f)) =
      ⟨⟨l.tempFile ++ buffer.take f.written, true, l.broadcasts + 1⟩, rs.map wakeOne⟩ := by
  simp [step, Write, fileWrite, Close, h, broadcastIf]

/-- C5 evaluated on the code: a reader has read zero bytes (line 87) and seen
`done` open (lines 95-99); the writer's `Write([2, 3])` fails in the storage
after one byte, so its deferred `Close` closes `done` and broadcasts, to
nobody; the reader then runs `Lock(); Wait()`.  The stream is closed, and
this `Read`, which found zero bytes, is parked and stays parked under every
later schedule instead of returning `io.EOF`. -/
theorem storage_fault_leaves_reader_parked :
    (Write ⟨[], false, 0⟩ [2, 3] (some ⟨1, Error.io 28⟩)).1 = (0, some (Error.io 28)) ∧
      run [.newReader 1, .reader 0, .reader 0, .write [2, 3] (some ⟨1, Error.io 28⟩),
           .reader 0] init =
        ⟨⟨[2], true, 1⟩, [⟨⟨0⟩, 1, .waiting, [], []⟩]⟩ ∧
      (∀ es : List Event,
        (run es (run [.newReader 1, .reader 0, .reader 0,
            .write [2, 3] (some ⟨1, Error.io 28⟩), .reader 0] init)).l.done = true ∧
        ((run es (run [.newReader 1, .reader 0, .reader 0,
            .write [2, 3] (some ⟨1, Error.io 28⟩), .reader 0] init)).rs[0]?).map
          (fun r => r.pc) = some Pc.waiting ∧
        ((run es (run [.newReader 1, .reader 0, .reader 0,
            .write [2, 3] (some ⟨1, Error.io 28⟩), .reader 0] init)).rs[0]?).map
          (fun r => r.rets) = some []) := by
  have h0 : run [.newReader 1, .reader 0, .reader 0, .write [2, 3] (some ⟨1, Error.io 28⟩),
      .reader 0] init = ⟨⟨[2], true, 1⟩, [⟨⟨0⟩, 1, .waiting, [], []⟩]⟩ := by decide
  refine ⟨by decide, h0, ?_⟩
  intro es
  rw [h0]
  refine ⟨by rw [run_done es _ rfl], parked_run es _ 0 rfl rfl, ?_⟩
  exact parked_rets_run es _ 0 [] rfl rfl

/-- C2 evaluated on the code: two readers of one stream.  Reader 1 does its
storage read on the still empty file, the writer then runs `Write([1])` and
`Close()`, and reader 1 goes on to the flag check: its `Read` returns
`(0, io.EOF)` with the byte undelivered, while reader 0 receives it. -/
theorem reader_misses_bytes_written_before_close :
    run [.newReader 1, .newReader 1, .reader 1, .write [1] none, .close,
         .reader 1, .reader 0, .reader 0, .reader 0, .reader 0] init =
      ⟨⟨[1], true, 2⟩,
        [⟨⟨1⟩, 1, .stopped .EOF, [1], [(1, none), (0, some .EOF)]⟩,
         ⟨⟨0⟩, 1, .stopped .EOF, [], [(0, some .EOF)]⟩]⟩ := by
  decide

/-- C10: once `done` is closed it stays closed along every schedule of
`Write`, `Close`, `NewReader` and reader steps (the stream is in fact not
changed at all any more), and a `Read` that does its flag check from then on
returns and never goes on to `Lock(); Wait()`. -/
theorem closed_latch (s : Sys) (es : List Event) (h : s.l.done = true) :
    (run es s).l.done = true ∧
      (run es s).l = s.l ∧
      (∀ b f, (Write s.l b f).2.done = true) ∧
      (Close s.l).2.done = true ∧
      (∀ n err, afterRead (run es s).l.done n err ≠ .wait) ∧
      (∀ lr k, (Read (run es s).l lr k).1 ≠ .wait) ∧
      (∀ lr buflen got rets fr,
        (readerStep (run es s).l ⟨lr, buflen, .atCheck fr, got, rets⟩).pc ≠ .atLock ∧
        (readerStep (run es s).l ⟨lr, buflen, .atCheck fr, got, rets⟩).pc ≠ .waiting) := by
  have hl := run_done es s h
  rw [hl, h]
  refine ⟨rfl, rfl, fun b f => Write_done_mono _ b f h, Close_done _, afterRead_closed_ne_wait,
    ?_, ?_⟩
  · intro lr k
    simp only [Read, ReadWith, h]
    exact afterRead_closed_ne_wait _ _
  · intro lr buflen got rets fr
    have hne := afterRead_closed_ne_wait fr.n fr.err
    simp only [readerStep, h]
    generalize afterRead true fr.n fr.err = res at hne
    cases res with
    | wait => exact absurd rfl hne
    | ret n err =>
      cases err <;> simp

theorem closed_latch_witness :
    (run [.write [4] none, .close, .newReader 2, .reader 0, .reader 0]
        ⟨⟨[3], true, 1⟩, []⟩).l.done = true ∧
      (run [.write [4] none, .close, .newReader 2, .reader 0, .reader 0]
        ⟨⟨[3], true, 1⟩, []⟩).l = ⟨[3], true, 1⟩ :=
  ⟨(closed_latch ⟨⟨[3], true, 1⟩, []⟩
      [.write [4] none, .close, .newReader 2, .reader 0, .reader 0] rfl).1,
    (closed_latch ⟨⟨[3], true, 1⟩, []⟩
      [.write [4] none, .close, .newReader 2, .reader 0, .reader 0] rfl).2.1⟩

theorem fileRead_end_pos (content : List Byte) (off buflen : Nat) (hb : 0 < buflen)
    (h : content.length ≤ off) :
    fileRead content off buflen = { data := [], n := 0, err := some Error.EOF } := by
  unfold fileRead
  have hne : ¬ buflen = 0 := by omega
  simp [hne, List.drop_eq_nil_of_le h]

theorem fileRead_appended (content X : List Byte) (buflen : Nat) (hb : 0 < buflen)
    (hX : X ≠ []) :
    fileRead (content ++ X) content.length buflen =
      { data := X.take buflen, n := min buflen X.length, err := none } := by
  have hpos : 0 < X.length := List.length_pos.mpr hX
  rw [fileRead_inside _ _ _ hb (by simp; omega)]
  simp

theorem Read_open_at_end (l : LogStream) (lr : LogStreamReader) (k : Nat)
    (hopen : l.done = false) (hend : l.tempFile.length ≤ lr.off) :
    Read l lr k = (.wait, [], lr) := by
  unfold Read ReadWith fileRead
  split
  · simp [afterRead, hopen]
  · simp [List.drop_eq_nil_of_le hend, afterRead, hopen]

/-- C9 as stated fails for an empty buffer: the reader parks, `Write([1])`
wakes it, the storage read into the empty buffer gives `(0, nil)` again and
the same `Read` call parks a second time; it has returned nothing. -/
theorem empty_buffer_read_parks_again :
    run [.newReader 0, .reader 0, .reader 0, .reader 0, .write [1] none] init =
        ⟨⟨[1], false, 1⟩, [⟨⟨0⟩, 0, .atRead, [], []⟩]⟩ ∧
      run [.newReader 0, .reader 0, .reader 0, .reader 0, .write [1] none,
           .reader 0, .reader 0, .reader 0] init =
        ⟨⟨[1], false, 1⟩, [⟨⟨0⟩, 0, .waiting, [], []⟩]⟩ := by
  decide

/-- C9, amended to non-empty buffers: on an open stream a reader whose handle
is at the end of the content does not return from `Read` (for any buffer) but
parks in `Wait`; when the writer then appends a non-empty `X`, the broadcast
releases it and the same call returns `(min(len(buffer), len(X)), nil)` with
the first bytes of `X`; after a following `Close` a pass of `Read` that reads
zero bytes returns `(0, io.EOF)`, which is the very next call when `X` fitted
the buffer. -/
theorem tailing_read (l : LogStream) (lr : LogStreamReader) (buflen : Nat) (X : List Byte)
    (hopen : l.done = false) (hend : lr.off = l.tempFile.length) (hb : 0 < buflen)
    (hX : X ≠ []) :
    (∀ k, Read l lr k = (.wait, [], lr)) ∧
      (∀ k, run [.reader 0, .reader 0, .reader 0] ⟨l, [⟨lr, k, .atRead, [], []⟩]⟩ =
        ⟨l, [⟨lr, k, .waiting, [], []⟩]⟩) ∧
      run [.write X none, .reader 0, .reader 0] ⟨l, [⟨lr, buflen, .waiting, [], []⟩]⟩ =
        ⟨⟨l.tempFile ++ X, false, l.broadcasts + 1⟩,
          [⟨⟨lr.off + min buflen X.length⟩, buflen, .atRead, X.take buflen,
            [(min buflen X.length, none)]⟩]⟩ ∧
      (∀ lr2 data, (ReadWith (Close (Write l X none).2).2 lr2 ⟨data, 0, none⟩).1 =
          .ret 0 (some Error.EOF) ∧
        (ReadWith (Close (Write l X none).2).2 lr2 ⟨data, 0, some Error.EOF⟩).1 =
          .ret 0 (some Error.EOF)) ∧
      (X.length ≤ buflen →
        run [.write X none, .reader 0, .reader 0, .close, .reader 0, .reader 0]
            ⟨l, [⟨lr, buflen, .waiting, [], []⟩]⟩ =
          ⟨⟨l.tempFile ++ X, true, l.broadcasts + 2⟩,
            [⟨⟨lr.off + X.length⟩, buflen, .stopped Error.EOF, X,
              [(X.length, none), (0, some Error.EOF)]⟩]⟩) := by
  have hpos : 0 < X.length := List.length_pos.mpr hX
  have hmin : 0 < min buflen X.length := by
    rw [Nat.min_def]; split <;> omega
  have hpark : ∀ k, Read l lr k = (.wait, [], lr) :=
    fun k => Read_open_at_end l lr k hopen (by omega)
  have hwrite : run [.write X none, .reader 0, .reader 0]
      ⟨l, [⟨lr, buflen, .waiting, [], []⟩]⟩ =
      ⟨⟨l.tempFile ++ X, false, l.broadcasts + 1⟩,
        [⟨⟨lr.off + min buflen X.length⟩, buflen, .atRead, X.take buflen,
          [(min buflen X.length, none)]⟩]⟩ := by
    simp [run, step, Write, fileWrite, hopen, broadcastIf, wakeOne, updateAt, readerStep,
      hend, fileRead_appended _ _ _ hb hX, afterRead, hmin]
  refine ⟨hpark, ?_, hwrite, ?_, ?_⟩
  · intro k
    have h1 := hpark k
    simp only [Read, ReadWith, Prod.mk.injEq] at h1
    obtain ⟨ha, hdat, hoff⟩ := h1
    simp [run, step, updateAt, readerStep, ha, hoff]
  · intro lr2 data
    simp [ReadWith, Close_done, afterRead]
  · intro hfit
    have hsplit : run [.write X none, .reader 0, .reader 0, .close, .reader 0, .reader 0]
        ⟨l, [⟨lr, buflen, .waiting, [], []⟩]⟩ =
        run [.close, .reader 0, .reader 0]
          (run [.write X none, .reader 0, .reader 0] ⟨l, [⟨lr, buflen, .waiting, [], []⟩]⟩) := rfl
    rw [hsplit, hwrite]
    have hm : min buflen X.length = X.length := Nat.min_eq_right hfit
    have hrd := fileRead_end_pos (l.tempFile ++ X) (lr.off + X.length) buflen hb
      (by simp [hend])
    simp [run, step, Close, broadcastIf, wakeOne, updateAt, readerStep, hm, hrd, afterRead,
      List.take_of_length_le hfit]

theorem tailing_read_witness :
    run [.write [7, 8] none, .reader 0, .reader 0]
        ⟨⟨[5], false, 1⟩, [⟨⟨1⟩, 1, .waiting, [], []⟩]⟩ =
      ⟨⟨[5] ++ [7, 8], false, 1 + 1⟩,
        [⟨⟨1 + min 1 [7, 8].length⟩, 1, .atRead, [7, 8].take 1,
          [(min 1 [7, 8].length, none)]⟩]⟩ :=
  (tailing_read ⟨[5], false, 1⟩ ⟨1⟩ 1 [7, 8] rfl rfl (by decide) (by decide)).2.2.1

/-! ## Uninterrupted passes -/

theorem Tail.step_inv (buflen : Nat) (hb : 0 < buflen) (t : Tail) (op : Op)
    (h : t.Inv) : (Tail.step buflen t op).Inv := by
  obtain ⟨hle, hgot, heof⟩ := h
  cases op with
  | write buffer =>
    cases hd : t.l.done with
    | true =>
      have : (Write t.l buffer none).2 = t.l := by simp [Write, hd]
      simp only [Tail.step, Tail.Inv, this]
      exact ⟨hle, hgot, heof⟩
    | false =>
      have hw : (Write t.l buffer none).2 =
          { tempFile := t.l.tempFile ++ buffer, done := false,
            broadcasts := t.l.broadcasts + 1 } := by
        simp [Write, fileWrite, hd]
      simp only [Tail.step, Tail.Inv, hw]
      refine ⟨by simp; omega, ?_, ?_⟩
      · rw [List.take_append_of_le_length hle]; exact hgot
      · intro he
        have := (heof he).1
        rw [hd] at this
        exact absurd this (by decide)
  | close =>
    simp only [Tail.step, Tail.Inv, Close_tempFile]
    exact ⟨hle, hgot, fun he => ⟨Close_done _, (heof he).2⟩⟩
  | read =>
    cases he : t.eof with
    | true =>
      simp only [Tail.step, he, if_true]
      exact ⟨hle, hgot, heof⟩
    | false =>
      simp only [Tail.step, he, Bool.false_eq_true, if_false]
      by_cases hin : t.lr.off < t.l.tempFile.length
      · have hr := fileRead_inside t.l.tempFile t.lr.off buflen hb hin
        have hpos : 0 < min buflen (t.l.tempFile.length - t.lr.off) := by
          rw [Nat.min_def]; split <;> omega
        have hstep : Read t.l t.lr buflen =
            (.ret (min buflen (t.l.tempFile.length - t.lr.off)) none,
              (t.l.tempFile.drop t.lr.off).take buflen,
              { off := t.lr.off + min buflen (t.l.tempFile.length - t.lr.off) }) := by
          simp [Read, ReadWith, hr, afterRead, hpos]
        rw [hstep]
        simp only [Tail.Inv]
        refine ⟨by rw [Nat.min_def]; split <;> omega, ?_, ?_⟩
        · rw [hgot, List.take_add]
          congr 1
          rcases Nat.le_total buflen (t.l.tempFile.length - t.lr.off) with h1 | h1
          · rw [Nat.min_eq_left h1]
          · rw [Nat.min_eq_right h1, List.take_of_length_le (by simp; omega),
              List.take_of_length_le (by simp)]
        · intro hc; exact absurd hc (by simp [he])
      · have hle2 : t.l.tempFile.length ≤ t.lr.off := by omega
        cases hd : t.l.done with
        | false =>
          rw [Read_open_at_end t.l t.lr buflen hd hle2]
          exact ⟨hle, hgot, heof⟩
        | true =>
          have hstep : Read t.l t.lr buflen = (.ret 0 (some Error.EOF), [], t.lr) := by
            unfold Read ReadWith
            rw [fileRead_end_pos _ _ _ hb hle2]
            simp [afterRead, hd]
          rw [hstep]
          have hoff : t.lr.off = t.l.tempFile.length := by omega
          exact ⟨hle, hgot, fun _ => ⟨hd, hoff⟩⟩

theorem Tail.run_inv (buflen : Nat) (hb : 0 < buflen) (ops : List Op) :
    ∀ t : Tail, t.Inv → (Tail.run buflen ops t).Inv := by
  induction ops with
  | nil => intro t h; exact h
  | cons op ops ih =>
    intro t h
    exact ih _ (Tail.step_inv buflen hb t op h)

theorem Tail.run_tempFile (buflen : Nat) (ops : List Op) :
    ∀ t : Tail, (Tail.run buflen ops t).l.tempFile = t.l.tempFile ++ written t.l.done ops := by
  induction ops with
  | nil => intro t; cases t.l.done <;> simp [Tail.run, written]
  | cons op ops ih =>
    intro t
    have hrun : Tail.run buflen (op :: ops) t = Tail.run buflen ops (Tail.step buflen t op) := rfl
    rw [hrun, ih]
    cases hd : t.l.done with
    | true =>
      have hl : (Tail.step buflen t op).l = t.l := by
        cases op with
        | write buffer => simp [Tail.step, Write, hd]
        | close => simp [Tail.step, Close, hd]
        | read =>
          simp only [Tail.step]
          split
          · rfl
          · split <;> rfl
      rw [hl, hd]
      simp [written]
    | false =>
      cases op with
      | write buffer => simp [Tail.step, Write, fileWrite, hd, written]
      | close => simp [Tail.step, Close, hd, written]
      | read =>
        have hl : (Tail.step buflen t Op.read).l = t.l := by
          simp only [Tail.step]
          split
          · rfl
          · split <;> rfl
        rw [hl, hd]
        simp [written]

/-- When no writer step falls inside a pass of `Read` and the buffer is not
empty, a reader opened at any moment that gets `io.EOF` has received all the
bytes written, those before it was opened included. -/
theorem uninterrupted_reader_sees_everything (buflen : Nat) (hb : 0 < buflen)
    (l : LogStream) (ops : List Op) :
    (Tail.run buflen ops ⟨l, ⟨0⟩, [], false⟩).eof = true →
      (Tail.run buflen ops ⟨l, ⟨0⟩, [], false⟩).got = l.tempFile ++ written l.done ops := by
  intro he
  have hinv := Tail.run_inv buflen hb ops ⟨l, ⟨0⟩, [], false⟩
    ⟨Nat.zero_le _, by simp, fun h => by simp at h⟩
  obtain ⟨_, hgot, heof⟩ := hinv
  rw [hgot, (heof he).2, List.take_length, Tail.run_tempFile]

end Logstream
